import Mathlib

/-!
# Verification of the tinyimg lossy-palette core (src/rust/src/lib.rs)

Shallow embedding of the perceptually-bounded palette-size search of
`tinyimg`.  The raster codec, the exoquant clustering engine and the oxipng
compressor are external collaborators; they are modelled as abstract
parameters.  The sRGB→Lab conversion (`to_lab`) and the CIE76 distance
(`delta_e`) are floating-point transcendental functions (`powf`, `sqrt`);
since every claim under verification is independent of the concrete
distance values, the pair is abstracted as parameters `tl : Color → Lab`
and `de : Lab → Lab → ℚ`, with `f64` scalars idealized as exact rationals.
`f64` values that can be NaN (the caller-supplied `lossy` budget) are
modelled by the type `F64` below, which keeps the IEEE behaviour of the
single comparison the code performs on them.
-/

namespace Tinyimg

/-- The `exoquant::Color` pixel: four 8-bit channels, as in the source. -/
structure Color where
  r : Fin 256
  g : Fin 256
  b : Fin 256
  a : Fin 256
deriving DecidableEq, Repr

instance : Inhabited Color := ⟨⟨0, 0, 0, 0⟩⟩

/-- A CIE Lab coordinate triple (`[f64; 3]` in the source), with `f64`
idealized as ℚ. -/
abbrev Lab : Type := ℚ × ℚ × ℚ

/-- lib.rs:217–220, `color_key`: pack the four channels of a pixel into one
32-bit value, `((r as u32) << 24) | ((g as u32) << 16) | ((b as u32) << 8) | a`.
Channels are below 256, so the 32-bit arithmetic never wraps and the key is
modelled on ℕ without a reduction mod 2^32. -/
def color_key (c : Color) : ℕ :=
  (c.r.val <<< 24) ||| (c.g.val <<< 16) ||| (c.b.val <<< 8) ||| c.a.val

/-- lib.rs:222–224, `count_unique_colors`: the cardinality of the `HashSet`
of keys, i.e. the number of distinct `color_key` values of the pixels. -/
def count_unique_colors (pixels : List Color) : ℕ :=
  ((pixels.map color_key).dedup).length

/-- lib.rs:209–215, `sample_indices`: for an empty image return no samples;
otherwise walk `0..len` with `step_by(step)` where
`step = (len / max_samples).max(1)` — i.e. keep exactly the multiples of
`step` below `len`. -/
def sample_indices (len max_samples : ℕ) : List ℕ :=
  if len = 0 then []
  else
    ((List.range len).filter (fun i => decide (i % max (len / max_samples) 1 = 0)))

/-! ## `color_key` is a lossless packing (claim C8) -/

theorem lor_mul_pow_add : ∀ (n a b : ℕ), b < 2 ^ n → (a * 2 ^ n) ||| b = a * 2 ^ n + b := by
  intro n
  induction n with
  | zero =>
    intro a b hb
    interval_cases b
    simp
  | succ n ih =>
    intro a b hb
    have hbit : a * 2 ^ (n + 1) = Nat.bit false (a * 2 ^ n) := by
      rw [Nat.bit_val]; simp [Bool.toNat]; ring
    have hb2 : b.div2 < 2 ^ n := by
      rw [Nat.div2_val]
      omega
    calc (a * 2 ^ (n + 1)) ||| b
        = Nat.bit false (a * 2 ^ n) ||| Nat.bit b.bodd b.div2 := by
          rw [← hbit, Nat.bit_decomp]
      _ = Nat.bit (false || b.bodd) ((a * 2 ^ n) ||| b.div2) := Nat.lor_bit _ _ _ _
      _ = Nat.bit b.bodd (a * 2 ^ n + b.div2) := by rw [Bool.false_or, ih _ _ hb2]
      _ = 2 * (a * 2 ^ n + b.div2) + b.bodd.toNat := Nat.bit_val _ _
      _ = a * 2 ^ (n + 1) + (2 * b.div2 + b.bodd.toNat) := by ring
      _ = a * 2 ^ (n + 1) + b := by
          have : Nat.bit b.bodd b.div2 = b := Nat.bit_decomp b
          rw [Nat.bit_val] at this
          omega

theorem color_key_eq_add (c : Color) :
    color_key c = c.r.val * 2 ^ 24 + c.g.val * 2 ^ 16 + c.b.val * 2 ^ 8 + c.a.val := by
  have hr := c.r.isLt
  have hg := c.g.isLt
  have hb := c.b.isLt
  have ha := c.a.isLt
  have h8 : c.b.val * 2 ^ 8 + c.a.val < 2 ^ 16 := by omega
  have h16 : c.g.val * 2 ^ 16 + (c.b.val * 2 ^ 8 + c.a.val) < 2 ^ 24 := by omega
  unfold color_key
  rw [Nat.shiftLeft_eq, Nat.shiftLeft_eq, Nat.shiftLeft_eq,
    Nat.lor_assoc, Nat.lor_assoc,
    lor_mul_pow_add 8 c.b.val c.a.val (by omega),
    lor_mul_pow_add 16 c.g.val _ h8,
    lor_mul_pow_add 24 c.r.val _ h16]
  ring

/-- Claim C8: two pixels produce equal 32-bit keys exactly when all four
8-bit channels agree — the packing is injective on RGBA tuples. -/
theorem color_key_inj_iff (c₁ c₂ : Color) :
    color_key c₁ = color_key c₂ ↔
      (c₁.r = c₂.r ∧ c₁.g = c₂.g ∧ c₁.b = c₂.b ∧ c₁.a = c₂.a) := by
  rw [color_key_eq_add, color_key_eq_add]
  constructor
  · intro h
    have hr := c₁.r.isLt; have hg := c₁.g.isLt; have hb := c₁.b.isLt; have ha := c₁.a.isLt
    have hr' := c₂.r.isLt; have hg' := c₂.g.isLt; have hb' := c₂.b.isLt; have ha' := c₂.a.isLt
    refine ⟨?_, ?_, ?_, ?_⟩ <;> [skip; skip; skip; skip] <;>
      first
      | exact Fin.ext (by omega)
  · rintro ⟨h1, h2, h3, h4⟩
    rw [h1, h2, h3, h4]

/-! ## The sampler (claims C2 and C7) -/

theorem filter_mod_eq_map_range (s : ℕ) (hs : 0 < s) :
    ∀ n, (List.range n).filter (fun i => decide (i % s = 0)) =
      (List.range ((n + s - 1) / s)).map (fun j => j * s) := by
  intro n
  induction n with
  | zero =>
    have : (s - 1) / s = 0 := Nat.div_eq_of_lt (by omega)
    simp [this]
  | succ n ih =>
    rw [List.range_succ, List.filter_append, ih]
    have harg : n + 1 + s - 1 = n + s := by omega
    rw [harg]
    by_cases hdvd : s ∣ n
    · obtain ⟨q, rfl⟩ := hdvd
      have hmod : s * q % s = 0 := Nat.mul_mod_right s q
      have hc : (s * q + s - 1) / s = q := by
        have h1 : s * q + s - 1 = (s - 1) + s * q := by omega
        rw [h1, Nat.add_mul_div_left _ _ hs, Nat.div_eq_of_lt (by omega)]
        omega
      have hc' : (s * q + s) / s = q + 1 := by
        have h1 : s * q + s = 0 + s * (q + 1) := by ring
        rw [h1, Nat.add_mul_div_left _ _ hs]
        simp
      rw [hc, hc', List.range_succ, List.map_append]
      simp [List.filter, hmod, Nat.mul_comm]
    · have hmod : ¬ n % s = 0 := fun h => hdvd (Nat.dvd_of_mod_eq_zero h)
      have hnd : ¬ s ∣ (n + s) := by
        intro hd
        exact hdvd ((Nat.dvd_add_right (dvd_refl s)).mp (by rwa [Nat.add_comm] at hd))
      have hc : (n + s) / s = (n + s - 1) / s := by
        have h2 := Nat.succ_div (n + s - 1) s
        have h1 : n + s - 1 + 1 = n + s := by omega
        rw [h1] at h2
        simp only [hnd, if_false] at h2
        omega
      rw [hc]
      simp [List.filter, hmod]

theorem sample_indices_eq_map (len : ℕ) (h0 : len ≠ 0) :
    sample_indices len 50000 =
      (List.range ((len + max (len / 50000) 1 - 1) / max (len / 50000) 1)).map
        (fun j => j * max (len / 50000) 1) := by
  have hs : 0 < max (len / 50000) 1 := by omega
  rw [sample_indices, if_neg h0]
  exact filter_mod_eq_map_range _ hs len

/-- Claim C2 (failing input): at a total pixel count of 50001 the sampler
returns 50001 positions, exceeding the 50,000 cap stated by the spec and by
the source comment at lib.rs:147 (`step = (50001 / 50000).max(1) = 1`, so
every pixel is sampled). -/
theorem sample_indices_cap_exceeded_at_50001 :
    (sample_indices 50001 50000).length = 50001 := by
  have h1 : (50001 : ℕ) / 50000 = 1 := by norm_num
  rw [sample_indices, if_neg (by norm_num)]
  have h2 : (List.range 50001).filter (fun i => decide (i % max (50001 / 50000) 1 = 0)) =
      List.range 50001 := by
    rw [List.filter_eq_self]
    intro a _
    simp [h1, Nat.mod_one]
  rw [h2, List.length_range]

/-- Claim C7: the sampler's contract.  For a zero pixel count the result is
empty; otherwise the result starts at position 0, consecutive positions
differ by the uniform stride `max(1, len / 50000)`, and the sequence is
strictly increasing.  Determinism is inherent: `sample_indices` is a pure
function of its two arguments. -/
theorem sample_indices_contract_thm (len : ℕ) :
    (len = 0 → sample_indices len 50000 = []) ∧
    (0 < len → (sample_indices len 50000).head? = some 0) ∧
    List.Chain' (fun a b => b = a + max (len / 50000) 1) (sample_indices len 50000) ∧
    List.Pairwise (fun a b => a < b) (sample_indices len 50000) := by
  have hs : 0 < max (len / 50000) 1 := by omega
  by_cases h0 : len = 0
  · refine ⟨fun _ => by rw [sample_indices, if_pos h0], fun hlt => absurd h0 (by omega), ?_, ?_⟩
    · rw [sample_indices, if_pos h0]; exact List.chain'_nil
    · rw [sample_indices, if_pos h0]; exact List.Pairwise.nil
  · rw [sample_indices_eq_map len h0]
    refine ⟨fun h => absurd h h0, fun _ => ?_, ?_, ?_⟩
    · have hc : 1 ≤ (len + max (len / 50000) 1 - 1) / max (len / 50000) 1 :=
        (Nat.one_le_div_iff hs).mpr (by omega)
      have hx : (len + max (len / 50000) 1 - 1) / max (len / 50000) 1 =
          ((len + max (len / 50000) 1 - 1) / max (len / 50000) 1 - 1) + 1 := by omega
      rw [hx, List.range_succ_eq_map]
      simp
    · rw [List.chain'_iff_get]
      intro i h
      simp only [List.get_eq_getElem, List.getElem_map, List.getElem_range]
      ring
    · rw [List.pairwise_map]
      exact (List.pairwise_lt_range _).imp (fun h => mul_lt_mul_of_pos_right h hs)

/-- Witness for C7 at the concrete pixel counts 0 and 7. -/
theorem sample_indices_contract_thm_witness :
    sample_indices 0 50000 = [] ∧ (sample_indices 7 50000).head? = some 0 :=
  ⟨(sample_indices_contract_thm 0).1 rfl,
   (sample_indices_contract_thm 7).2.1 (by decide)⟩

/-! ## The 95th-percentile per-color metric (claims C4, C5, C6, C9)

lib.rs:235–253, `palette_p95_delta_e`.  The caller-owned scratch
`HashMap<u32, f64>` is modelled as an association list with distinct keys;
the code sorts the collected values immediately, so the result does not
depend on the map's (unspecified) iteration order, which the proofs below
establish by working up to permutation of the entries. -/

/-- One iteration of the aggregation loop at lib.rs:243–247:
`let entry = color_max_de.entry(key).or_insert(0.0); if de > *entry { *entry = de; }`. -/
def bumpMax : List (ℕ × ℚ) → ℕ → ℚ → List (ℕ × ℚ)
  | [], k, d => [(k, if 0 < d then d else 0)]
  | (k', v) :: m, k, d =>
    if k' = k then (k', if v < d then d else v) :: m
    else (k', v) :: bumpMax m k d

/-- The aggregation loop folded over the per-sample (key, Delta-E) pairs,
starting from the map state `m₀`. -/
def groupMaxMapFrom (m₀ : List (ℕ × ℚ)) (kds : List (ℕ × ℚ)) : List (ℕ × ℚ) :=
  kds.foldl (fun m kd => bumpMax m kd.1 kd.2) m₀

/-- The per-sample (ColorKey, Delta-E) pairs visited by the loop at
lib.rs:243–247: the loop walks `sample_idx.iter().enumerate()` reading the
parallel entries `src_lab[j]` and `sample_keys[j]` together with the
candidate pixel `quantized[i]`, i.e. it walks the three parallel sequences
in lockstep (`de` abstracts `delta_e`, `tl` abstracts `to_lab`). -/
def sampleKDs (de : Lab → Lab → ℚ) (tl : Color → Lab)
    (src_lab : List Lab) (sample_keys : List ℕ) (quantized : List Color)
    (sample_idx : List ℕ) : List (ℕ × ℚ) :=
  (sample_idx.zip (src_lab.zip sample_keys)).map
    (fun t => (t.2.2, de t.2.1 (tl (quantized.getD t.1 default))))

/-- lib.rs:235–253, `palette_p95_delta_e`: clear the scratch map, aggregate
the per-color maximum Delta-E, collect the values, sort ascending and take
the value at rank `ceil(0.95 × count) − 1` (saturating, clamped to the last
index); an empty collection yields 0.  Returns the metric together with the
final state of the caller-owned scratch map. -/
def palette_p95_delta_e (de : Lab → Lab → ℚ) (tl : Color → Lab)
    (src_lab : List Lab) (sample_keys : List ℕ) (quantized : List Color)
    (sample_idx : List ℕ) (color_max_de : List (ℕ × ℚ)) : ℚ × List (ℕ × ℚ) :=
  let m := groupMaxMapFrom ([] : List (ℕ × ℚ))
    (sampleKDs de tl src_lab sample_keys quantized sample_idx)
  let des := m.map Prod.snd
  if des.isEmpty then (0, m)
  else
    let sorted := des.mergeSort (fun a b => decide (a ≤ b))
    let p := (⌈(des.length : ℚ) * 0.95⌉).toNat - 1
    (sorted.getD (min p (des.length - 1)) 0, m)

/-- The worst Delta-E over the samples carrying key `k` (at least 0,
matching the `or_insert(0.0)` baseline of the aggregation loop). -/
def groupVal (kds : List (ℕ × ℚ)) (k : ℕ) : ℚ :=
  ((kds.filter (fun kd => decide (kd.1 = k))).map Prod.snd).foldl max 0

/-- Spec 4.2 (primary policy): the per-ColorKey maxima — one value per
distinct sampled key, the worst Delta-E over the samples sharing that key. -/
def spec_group_maxima (de : Lab → Lab → ℚ) (tl : Color → Lab)
    (src_lab : List Lab) (sample_keys : List ℕ) (quantized : List Color)
    (sample_idx : List ℕ) : List ℚ :=
  let kds := sampleKDs de tl src_lab sample_keys quantized sample_idx
  ((kds.map Prod.fst).dedup).map (groupVal kds)

/-- Spec 4.2 (primary policy): sort the group maxima ascending and return
the value at rank `ceil(0.95 × count) − 1`, clamped to the last valid
index; 0 for an empty collection. -/
def spec_p95 (maxima : List ℚ) : ℚ :=
  if maxima = [] then 0
  else (maxima.mergeSort (fun a b => decide (a ≤ b))).getD
    (min ((⌈(maxima.length : ℚ) * 0.95⌉).toNat - 1) (maxima.length - 1)) 0

/-- Claim C9: the metric is a pure function of the candidate and the sampled
originals — the scratch map is cleared at entry, so both the returned metric
and the final map state are independent of the map contents handed in. -/
theorem palette_p95_scratch_independent (de : Lab → Lab → ℚ) (tl : Color → Lab)
    (src_lab : List Lab) (sample_keys : List ℕ) (quantized : List Color)
    (sample_idx : List ℕ) (m₁ m₂ : List (ℕ × ℚ)) :
    palette_p95_delta_e de tl src_lab sample_keys quantized sample_idx m₁ =
      palette_p95_delta_e de tl src_lab sample_keys quantized sample_idx m₂ := rfl

/-! ### Association-list toolkit for the scratch map -/

/-- Lookup in the association-list model of the `HashMap`. -/
def lookupQ (k : ℕ) : List (ℕ × ℚ) → Option ℚ
  | [] => none
  | kv :: m => if kv.1 = k then some kv.2 else lookupQ k m

/-- The keys of the association-list model of the `HashMap`. -/
def keysOf (m : List (ℕ × ℚ)) : List ℕ := m.map Prod.fst

/-- The effect of one loop iteration on one map entry. -/
def stepMax (o : Option ℚ) (d : ℚ) : Option ℚ :=
  some (match o with
    | none => if 0 < d then d else 0
    | some v => if v < d then d else v)

theorem lookupQ_bumpMax_self (m : List (ℕ × ℚ)) (k : ℕ) (d : ℚ) :
    lookupQ k (bumpMax m k d) = stepMax (lookupQ k m) d := by
  induction m with
  | nil => simp [bumpMax, lookupQ, stepMax]
  | cons kv m ih =>
    obtain ⟨a, v⟩ := kv
    by_cases h : a = k
    · subst h
      simp [bumpMax, lookupQ, stepMax]
    · simp [bumpMax, lookupQ, h, ih]

theorem lookupQ_bumpMax_ne (m : List (ℕ × ℚ)) (k k' : ℕ) (d : ℚ) (h : k' ≠ k) :
    lookupQ k' (bumpMax m k d) = lookupQ k' m := by
  induction m with
  | nil => simp [bumpMax, lookupQ, h.symm]
  | cons kv m ih =>
    obtain ⟨a, v⟩ := kv
    by_cases hk : a = k
    · subst hk
      simp [bumpMax, lookupQ, h.symm]
    · simp [bumpMax, lookupQ, hk, ih]

theorem keysOf_bumpMax (m : List (ℕ × ℚ)) (k : ℕ) (d : ℚ) :
    keysOf (bumpMax m k d) = if k ∈ keysOf m then keysOf m else keysOf m ++ [k] := by
  induction m with
  | nil => simp [bumpMax, keysOf]
  | cons kv m ih =>
    obtain ⟨a, v⟩ := kv
    by_cases hk : a = k
    · subst hk
      simp [bumpMax, keysOf]
    · by_cases hmem : k ∈ keysOf m
      · simp only [keysOf, List.map_cons] at ih ⊢
        simp only [keysOf] at hmem
        simp [bumpMax, hk, ih, hmem, Ne.symm hk]
      · simp only [keysOf, List.map_cons] at ih ⊢
        simp only [keysOf] at hmem
        simp [bumpMax, hk, ih, hmem, Ne.symm hk]

theorem nodup_keysOf_bumpMax (m : List (ℕ × ℚ)) (k : ℕ) (d : ℚ)
    (h : (keysOf m).Nodup) : (keysOf (bumpMax m k d)).Nodup := by
  rw [keysOf_bumpMax]
  by_cases hmem : k ∈ keysOf m
  · simpa [hmem]
  · simp only [hmem, if_false]
    simpa [List.nodup_append] using ⟨h, hmem⟩

theorem nodup_keysOf_groupMaxMapFrom (kds : List (ℕ × ℚ)) :
    ∀ m₀ : List (ℕ × ℚ), (keysOf m₀).Nodup → (keysOf (groupMaxMapFrom m₀ kds)).Nodup := by
  induction kds with
  | nil => intro m₀ h; exact h
  | cons kd kds ih =>
    intro m₀ h
    exact ih _ (nodup_keysOf_bumpMax m₀ kd.1 kd.2 h)

theorem lookupQ_groupMaxMapFrom (k : ℕ) (kds : List (ℕ × ℚ)) :
    ∀ m₀ : List (ℕ × ℚ),
      lookupQ k (groupMaxMapFrom m₀ kds) =
        ((kds.filter (fun kd => decide (kd.1 = k))).map Prod.snd).foldl stepMax
          (lookupQ k m₀) := by
  induction kds with
  | nil => intro m₀; rfl
  | cons kd kds ih =>
    intro m₀
    have hstep : groupMaxMapFrom m₀ (kd :: kds) =
        groupMaxMapFrom (bumpMax m₀ kd.1 kd.2) kds := rfl
    rw [hstep, ih]
    by_cases h : kd.1 = k
    · subst h
      rw [lookupQ_bumpMax_self]
      simp [List.filter]
    · rw [lookupQ_bumpMax_ne _ _ _ _ (fun hk => h hk.symm)]
      simp [List.filter, h]

theorem foldl_stepMax_some (ds : List ℚ) :
    ∀ v : ℚ, ds.foldl stepMax (some v) = some (ds.foldl max v) := by
  induction ds with
  | nil => intro v; rfl
  | cons d ds ih =>
    intro v
    have h1 : stepMax (some v) d = some (max v d) := by
      rcases lt_or_le v d with h | h
      · simp [stepMax, h, max_eq_right h.le]
      · simp [stepMax, not_lt.mpr h, max_eq_left h]
    rw [List.foldl_cons, h1, ih, List.foldl_cons]

theorem foldl_stepMax_none (ds : List ℚ) :
    ds.foldl stepMax none = if ds = [] then none else some (ds.foldl max 0) := by
  cases ds with
  | nil => rfl
  | cons d ds =>
    have h1 : stepMax none d = some (max 0 d) := by
      rcases lt_or_le 0 d with h | h
      · simp [stepMax, h, max_eq_right h.le]
      · simp [stepMax, not_lt.mpr h, max_eq_left h]
    rw [List.foldl_cons, h1, foldl_stepMax_some, List.foldl_cons]
    simp

theorem lookupQ_map_self (f : ℕ → ℚ) (l : List ℕ) (k : ℕ) :
    lookupQ k (l.map (fun k' => (k', f k'))) = if k ∈ l then some (f k) else none := by
  induction l with
  | nil => rfl
  | cons a l ih =>
    by_cases h : a = k
    · subst h
      simp [lookupQ]
    · simp [lookupQ, h, ih, Ne.symm h]

theorem lookupQ_eq_none_of_not_mem (m : List (ℕ × ℚ)) (k : ℕ) :
    k ∉ keysOf m → lookupQ k m = none := by
  induction m with
  | nil => intro _; rfl
  | cons kv m ih =>
    intro h
    simp only [keysOf, List.map_cons, List.mem_cons, not_or] at h
    have h1 : ¬ kv.1 = k := fun he => h.1 he.symm
    simp only [lookupQ, if_neg h1]
    exact ih (by simpa [keysOf] using h.2)

theorem lookupQ_append (s t : List (ℕ × ℚ)) (k : ℕ) :
    lookupQ k (s ++ t) = if k ∈ keysOf s then lookupQ k s else lookupQ k t := by
  induction s with
  | nil => simp [keysOf, lookupQ]
  | cons kv s ih =>
    by_cases h : kv.1 = k
    · have hmem : k ∈ keysOf (kv :: s) := by
        simp only [keysOf, List.map_cons, List.mem_cons]
        exact Or.inl h.symm
      rw [List.cons_append]
      simp only [lookupQ, if_pos h, if_pos hmem]
    · have hmem : (k ∈ keysOf (kv :: s)) ↔ (k ∈ keysOf s) := by
        simp only [keysOf, List.map_cons, List.mem_cons]
        constructor
        · rintro (he | hm)
          · exact absurd he.symm h
          · exact hm
        · exact Or.inr
      rw [List.cons_append]
      simp only [lookupQ, if_neg h, ih]
      by_cases hm : k ∈ keysOf s
      · rw [if_pos hm, if_pos (hmem.mpr hm)]
      · rw [if_neg hm, if_neg (fun hc => hm (hmem.mp hc))]

theorem lookupQ_some_split (k : ℕ) (v : ℚ) :
    ∀ l : List (ℕ × ℚ), lookupQ k l = some v →
      ∃ s t, l = s ++ (k, v) :: t ∧ k ∉ keysOf s := by
  intro l
  induction l with
  | nil => intro h; cases h
  | cons kv l ih =>
    intro h
    obtain ⟨a, w⟩ := kv
    by_cases hk : a = k
    · subst hk
      have hv : w = v := by simpa [lookupQ] using h
      subst hv
      exact ⟨[], l, rfl, by simp [keysOf]⟩
    · have h' : lookupQ k l = some v := by simpa [lookupQ, hk] using h
      obtain ⟨s, t, rfl, hs⟩ := ih h'
      refine ⟨(a, w) :: s, t, rfl, ?_⟩
      simp only [keysOf, List.map_cons, List.mem_cons, not_or]
      exact ⟨Ne.symm hk, by simpa [keysOf] using hs⟩

/-- Two association lists with distinct keys and identical lookups are
permutations of one another. -/
theorem perm_of_lookupQ_eq :
    ∀ l₁ l₂ : List (ℕ × ℚ), (keysOf l₁).Nodup → (keysOf l₂).Nodup →
      (∀ k, lookupQ k l₁ = lookupQ k l₂) → l₁.Perm l₂ := by
  intro l₁
  induction l₁ with
  | nil =>
    intro l₂ _ _ h
    cases l₂ with
    | nil => exact List.Perm.refl []
    | cons kv t =>
      have := h kv.1
      simp [lookupQ] at this
  | cons kv t₁ ih =>
    intro l₂ h₁ h₂ h
    obtain ⟨k, v⟩ := kv
    have hk2 : lookupQ k l₂ = some v := by
      have := h k
      simpa [lookupQ] using this.symm
    obtain ⟨s, t, rfl, hs⟩ := lookupQ_some_split k v l₂ hk2
    have hmid : (s ++ (k, v) :: t).Perm ((k, v) :: (s ++ t)) := List.perm_middle
    have hkeys2 : (k :: keysOf (s ++ t)).Nodup := by
      have hp : (keysOf (s ++ (k, v) :: t)).Perm (keysOf ((k, v) :: (s ++ t))) :=
        hmid.map Prod.fst
      have := hp.nodup h₂
      simpa [keysOf] using this
    have hknot2 : k ∉ keysOf (s ++ t) := (List.nodup_cons.mp hkeys2).1
    have hnodup2 : (keysOf (s ++ t)).Nodup := (List.nodup_cons.mp hkeys2).2
    have hkeys1 : (k :: keysOf t₁).Nodup := by simpa [keysOf] using h₁
    have hknot1 : k ∉ keysOf t₁ := (List.nodup_cons.mp hkeys1).1
    have hnodup1 : (keysOf t₁).Nodup := (List.nodup_cons.mp hkeys1).2
    have hlook : ∀ k', lookupQ k' t₁ = lookupQ k' (s ++ t) := by
      intro k'
      by_cases hkk : k' = k
      · subst hkk
        rw [lookupQ_eq_none_of_not_mem _ _ hknot1,
          lookupQ_eq_none_of_not_mem _ _ hknot2]
      · have h3 := h k'
        rw [show lookupQ k' ((k, v) :: t₁) = lookupQ k' t₁ by
            simp [lookupQ, Ne.symm hkk]] at h3
        rw [lookupQ_append] at h3
        rw [lookupQ_append]
        by_cases hmem : k' ∈ keysOf s
        · rw [if_pos hmem] at h3 ⊢
          exact h3
        · rw [if_neg hmem] at h3 ⊢
          rw [show lookupQ k' ((k, v) :: t) = lookupQ k' t by
            simp [lookupQ, Ne.symm hkk]] at h3
          exact h3
    have ihp : t₁.Perm (s ++ t) := ih (s ++ t) hnodup1 hnodup2 hlook
    exact (ihp.cons (k, v)).trans hmid.symm

/-- The spec-side association of each distinct sampled key with its group
maximum. -/
def specGroupMap (kds : List (ℕ × ℚ)) : List (ℕ × ℚ) :=
  ((kds.map Prod.fst).dedup).map (fun k => (k, groupVal kds k))

theorem keysOf_specGroupMap (kds : List (ℕ × ℚ)) :
    keysOf (specGroupMap kds) = (kds.map Prod.fst).dedup := by
  simp only [specGroupMap, keysOf, List.map_map]
  have h : (Prod.fst ∘ fun k => (k, groupVal kds k)) = fun k => k := rfl
  rw [h, List.map_id']

theorem filter_key_eq_nil_iff (kds : List (ℕ × ℚ)) (k : ℕ) :
    (kds.filter (fun kd => decide (kd.1 = k))) = [] ↔ k ∉ kds.map Prod.fst := by
  rw [List.filter_eq_nil_iff]
  constructor
  · intro h hmem
    obtain ⟨kd, hkd, he⟩ := List.mem_map.mp hmem
    exact (h kd hkd) (by simpa using he)
  · intro h kd hkd
    simp only [decide_eq_true_eq]
    intro he
    exact h (List.mem_map.mpr ⟨kd, hkd, he⟩)

/-- The aggregation loop, started from the cleared map, computes exactly
the spec's per-key maxima: the final scratch map is a permutation of the
spec-side association of distinct keys to group maxima. -/
theorem groupMaxMapFrom_perm_spec (kds : List (ℕ × ℚ)) :
    (groupMaxMapFrom [] kds).Perm (specGroupMap kds) := by
  apply perm_of_lookupQ_eq
  · exact nodup_keysOf_groupMaxMapFrom kds [] (by simp [keysOf])
  · rw [keysOf_specGroupMap]
    exact List.nodup_dedup _
  · intro k
    rw [lookupQ_groupMaxMapFrom k kds []]
    have hnil : lookupQ k ([] : List (ℕ × ℚ)) = none := rfl
    rw [hnil, foldl_stepMax_none]
    rw [specGroupMap, lookupQ_map_self]
    by_cases hmem : k ∈ (kds.map Prod.fst).dedup
    · rw [if_pos hmem]
      have hne : ¬ (kds.filter (fun kd => decide (kd.1 = k))).map Prod.snd = [] := by
        intro hmap
        have hfil : kds.filter (fun kd => decide (kd.1 = k)) = [] :=
          List.map_eq_nil.mp hmap
        exact ((filter_key_eq_nil_iff kds k).mp hfil) (List.mem_dedup.mp hmem)
      rw [if_neg hne]
      rfl
    · rw [if_neg hmem]
      have hfil : kds.filter (fun kd => decide (kd.1 = k)) = [] :=
        (filter_key_eq_nil_iff kds k).mpr (fun hm => hmem (List.mem_dedup.mpr hm))
      rw [if_pos (by rw [hfil]; rfl)]

theorem mergeSort_eq_of_perm (l₁ l₂ : List ℚ) (h : l₁.Perm l₂) :
    l₁.mergeSort (fun a b => decide (a ≤ b)) = l₂.mergeSort (fun a b => decide (a ≤ b)) :=
  List.eq_of_perm_of_sorted
    ((List.mergeSort_perm l₁ _).trans (h.trans (List.mergeSort_perm l₂ _).symm))
    (List.sorted_mergeSort' l₁) (List.sorted_mergeSort' l₂)

/-- The value of `spec_p95` only depends on the multiset of group maxima. -/
theorem spec_p95_perm (l₁ l₂ : List ℚ) (h : l₁.Perm l₂) : spec_p95 l₁ = spec_p95 l₂ := by
  by_cases h1 : l₁ = []
  · subst h1
    rw [h.symm.eq_nil]
  · have h2 : l₂ ≠ [] := fun he => h1 (by rw [he] at h; exact h.eq_nil)
    rw [spec_p95, spec_p95, if_neg h1, if_neg h2, mergeSort_eq_of_perm _ _ h, h.length_eq]

/-- Claim C4: the metric collects the per-ColorKey maximum Delta-E values,
sorts them ascending and returns the element at rank
`ceil(0.95 × count) − 1`, clamped to the last valid index; for an empty
collection of group maxima it returns 0 — i.e. the code equals the
spec-side formula `spec_p95 ∘ spec_group_maxima`. -/
theorem palette_p95_matches_spec (de : Lab → Lab → ℚ) (tl : Color → Lab)
    (src_lab : List Lab) (sample_keys : List ℕ) (quantized : List Color)
    (sample_idx : List ℕ) (m : List (ℕ × ℚ)) :
    (palette_p95_delta_e de tl src_lab sample_keys quantized sample_idx m).1 =
      spec_p95 (spec_group_maxima de tl src_lab sample_keys quantized sample_idx) := by
  have hperm : ((groupMaxMapFrom []
        (sampleKDs de tl src_lab sample_keys quantized sample_idx)).map Prod.snd).Perm
      (spec_group_maxima de tl src_lab sample_keys quantized sample_idx) := by
    have h := (groupMaxMapFrom_perm_spec
      (sampleKDs de tl src_lab sample_keys quantized sample_idx)).map Prod.snd
    simpa [spec_group_maxima, specGroupMap, List.map_map, Function.comp] using h
  rw [palette_p95_delta_e]
  by_cases hd : (groupMaxMapFrom []
      (sampleKDs de tl src_lab sample_keys quantized sample_idx)).map Prod.snd = []
  · have hmax : spec_group_maxima de tl src_lab sample_keys quantized sample_idx = [] := by
      rw [hd] at hperm
      exact hperm.symm.eq_nil
    rw [spec_p95, if_pos hmax]
    simp [hd]
  · have hmax : spec_group_maxima de tl src_lab sample_keys quantized sample_idx ≠ [] := by
      intro he
      rw [he] at hperm
      exact hd hperm.eq_nil
    rw [spec_p95, if_neg hmax]
    simp only [List.isEmpty_iff, hd, if_false]
    rw [mergeSort_eq_of_perm _ _ hperm, hperm.length_eq]

/-- Claim C5: when the sampled pixels form exactly two ColorGroups — the
spec-side group-maxima sequence has exactly the two entries `v` and `w` —
the metric is the larger of the two group maxima, whatever the number of
samples in each group (`ceil(2 × 0.95) − 1 = 1`, the top sorted index). -/
theorem palette_p95_two_groups_max (de : Lab → Lab → ℚ) (tl : Color → Lab)
    (src_lab : List Lab) (sample_keys : List ℕ) (quantized : List Color)
    (sample_idx : List ℕ) (m : List (ℕ × ℚ)) (v w : ℚ)
    (h : spec_group_maxima de tl src_lab sample_keys quantized sample_idx = [v, w]) :
    (palette_p95_delta_e de tl src_lab sample_keys quantized sample_idx m).1 =
      max v w := by
  rw [palette_p95_matches_spec, h, spec_p95, if_neg (by simp)]
  have hrank : min ((⌈(([v, w] : List ℚ).length : ℚ) * 0.95⌉).toNat - 1)
      (([v, w] : List ℚ).length - 1) = 1 := by
    have hc : (⌈(([v, w] : List ℚ).length : ℚ) * 0.95⌉ : ℤ) = 2 := by
      rw [show ((([v, w] : List ℚ).length : ℚ)) * 0.95 = 1.9 by norm_num]
      rw [Int.ceil_eq_iff]
      norm_num
    rw [hc]
    rfl
  rw [hrank]
  rcases le_total v w with h' | h'
  · have hsorted : List.Sorted (fun a b : ℚ => a ≤ b) [v, w] := by
      simp [List.sorted_cons, h']
    rw [List.eq_of_perm_of_sorted (List.mergeSort_perm [v, w] _)
      (List.sorted_mergeSort' _) hsorted]
    simp [max_eq_right h']
  · have hsorted : List.Sorted (fun a b : ℚ => a ≤ b) [w, v] := by
      simp [List.sorted_cons, h']
    have hp : (([v, w] : List ℚ).mergeSort (fun a b => decide (a ≤ b))).Perm [w, v] :=
      (List.mergeSort_perm [v, w] _).trans (List.Perm.swap w v [])
    rw [List.eq_of_perm_of_sorted hp (List.sorted_mergeSort' _) hsorted]
    simp [max_eq_left h']

theorem foldl_max_perm (l₁ l₂ : List ℚ) (h : l₁.Perm l₂) :
    ∀ v : ℚ, l₁.foldl max v = l₂.foldl max v := by
  induction h with
  | nil => intro v; rfl
  | cons x _ ih => intro v; simp only [List.foldl_cons]; exact ih _
  | swap x y l =>
    intro v
    simp only [List.foldl_cons]
    have : max (max v y) x = max (max v x) y := by
      rw [max_assoc, max_comm y x, ← max_assoc]
    rw [this]
  | trans _ _ ih₁ ih₂ => intro v; rw [ih₁, ih₂]

theorem groupVal_perm (kds₁ kds₂ : List (ℕ × ℚ)) (h : kds₁.Perm kds₂) (k : ℕ) :
    groupVal kds₁ k = groupVal kds₂ k := by
  rw [groupVal, groupVal]
  exact foldl_max_perm _ _ ((h.filter _).map Prod.snd) 0

/-- The spec-side group maxima of permuted sample data are permutations of
one another. -/
theorem spec_group_maxima_perm_of_kds_perm (kds₁ kds₂ : List (ℕ × ℚ))
    (h : kds₁.Perm kds₂) :
    (((kds₁.map Prod.fst).dedup).map (groupVal kds₁)).Perm
      (((kds₂.map Prod.fst).dedup).map (groupVal kds₂)) := by
  have hdedup : ((kds₁.map Prod.fst).dedup).Perm ((kds₂.map Prod.fst).dedup) :=
    (h.map Prod.fst).dedup
  have h1 : (((kds₂.map Prod.fst).dedup).map (groupVal kds₁)) =
      (((kds₂.map Prod.fst).dedup).map (groupVal kds₂)) :=
    List.map_congr_left (fun k _ => groupVal_perm kds₁ kds₂ h k)
  exact (hdedup.map (groupVal kds₁)).trans (h1 ▸ List.Perm.refl _)

/-- Claim C6: the metric is invariant under a consistent permutation of the
sampled positions — permuting the parallel sequences of source Lab values,
ColorKeys and sample positions (hence the candidate pixels read through
them) never changes the returned value; in particular reordering pixels
that share a ColorKey cannot change it. -/
theorem palette_p95_perm_invariant (de : Lab → Lab → ℚ) (tl : Color → Lab)
    (quantized : List Color)
    (src₁ : List Lab) (keys₁ : List ℕ) (idx₁ : List ℕ)
    (src₂ : List Lab) (keys₂ : List ℕ) (idx₂ : List ℕ)
    (m₁ m₂ : List (ℕ × ℚ))
    (hperm : (idx₁.zip (src₁.zip keys₁)).Perm (idx₂.zip (src₂.zip keys₂))) :
    (palette_p95_delta_e de tl src₁ keys₁ quantized idx₁ m₁).1 =
      (palette_p95_delta_e de tl src₂ keys₂ quantized idx₂ m₂).1 := by
  have hkds : (sampleKDs de tl src₁ keys₁ quantized idx₁).Perm
      (sampleKDs de tl src₂ keys₂ quantized idx₂) := hperm.map _
  rw [palette_p95_matches_spec, palette_p95_matches_spec]
  apply spec_p95_perm
  have h := spec_group_maxima_perm_of_kds_perm _ _ hkds
  simpa [spec_group_maxima] using h

/-- A concrete distance used to instantiate the abstract `delta_e` in
witnesses: the absolute difference of the first Lab coordinates. -/
def deAbs : Lab → Lab → ℚ := fun x y => |x.1 - y.1|

/-- A concrete conversion used to instantiate the abstract `to_lab` in
witnesses: the red channel as the first Lab coordinate. -/
def tlR : Color → Lab := fun c => ((c.r.val : ℚ), 0, 0)

/-- Witness for C5: two sampled pixels with distinct keys, group maxima 3
and 7 (one per key); the metric is their maximum. -/
theorem palette_p95_two_groups_max_witness :
    (palette_p95_delta_e deAbs tlR [(0, 0, 0), (0, 0, 0)] [0, 1]
      [⟨3, 0, 0, 0⟩, ⟨7, 0, 0, 0⟩] [0, 1] []).1 = max 3 7 :=
  palette_p95_two_groups_max deAbs tlR _ _ _ _ [] 3 7
    (by norm_num [spec_group_maxima, sampleKDs, groupVal, deAbs, tlR, List.filter,
      show ((3 : Fin 256) : ℕ) = 3 from rfl, show ((7 : Fin 256) : ℕ) = 7 from rfl])

/-- Witness for C6: the same two samples fed in the two possible orders,
with the parallel sequences permuted consistently, give the same metric. -/
theorem palette_p95_perm_invariant_witness :
    (palette_p95_delta_e deAbs tlR [(1, 0, 0), (2, 0, 0)] [5, 6]
      [⟨0, 0, 0, 0⟩] [0, 1] []).1 =
    (palette_p95_delta_e deAbs tlR [(2, 0, 0), (1, 0, 0)] [6, 5]
      [⟨0, 0, 0, 0⟩] [1, 0] []).1 :=
  palette_p95_perm_invariant deAbs tlR [⟨0, 0, 0, 0⟩] _ _ _ _ _ _ [] [] (by decide)

/-! ## The bisection search (claim C3)

lib.rs:160–183, the palette-size selection inside `apply_lossy_png`.  The
exoquant call `quantize_image_nodither(&pixels, width, n)` is the external
clustering collaborator and is abstracted as `qn : ℕ → List Color`. -/

/-- The `while lo < hi` loop at lib.rs:172–181, with an explicit fuel
argument: each iteration strictly shrinks `hi − lo`, so `fuel = hi − lo`
(see `bisect`) always suffices and the fueled recursion computes the loop's
exit value of `lo`; `bisect_go_fuel_irrelevant` below proves the fuel bound
immaterial, i.e. that the loop terminates within `hi − lo` iterations. -/
def bisect_go (lossy : ℚ) (metric : ℕ → ℚ) : ℕ → ℕ → ℕ → ℕ
  | 0, lo, _ => lo
  | fuel + 1, lo, hi =>
    if lo < hi then
      if metric ((lo + hi) / 2) ≤ lossy then bisect_go lossy metric fuel lo ((lo + hi) / 2)
      else bisect_go lossy metric fuel ((lo + hi) / 2 + 1) hi
    else lo

/-- The bisection loop run from `(lo, hi)` to exhaustion. -/
def bisect (lossy : ℚ) (metric : ℕ → ℚ) (lo hi : ℕ) : ℕ :=
  bisect_go lossy metric (hi - lo) lo hi

/-- The candidate sizes `mid` whose metric the loop evaluates, in order. -/
def bisect_tried (lossy : ℚ) (metric : ℕ → ℚ) : ℕ → ℕ → ℕ → List ℕ
  | 0, _, _ => []
  | fuel + 1, lo, hi =>
    if lo < hi then
      if metric ((lo + hi) / 2) ≤ lossy then
        (lo + hi) / 2 :: bisect_tried lossy metric fuel lo ((lo + hi) / 2)
      else (lo + hi) / 2 :: bisect_tried lossy metric fuel ((lo + hi) / 2 + 1) hi
    else []

/-- lib.rs:148, the sample positions of the image. -/
def lossy_sample_idx (pixels : List Color) : List ℕ :=
  sample_indices pixels.length 50000

/-- lib.rs:149, the precomputed Lab references of the sampled pixels. -/
def lossy_src_lab (tl : Color → Lab) (pixels : List Color) : List Lab :=
  (lossy_sample_idx pixels).map (fun i => tl (pixels.getD i default))

/-- lib.rs:152–155, the precomputed ColorKeys of the sampled pixels. -/
def lossy_sample_keys (pixels : List Color) : List ℕ :=
  (lossy_sample_idx pixels).map (fun i => color_key (pixels.getD i default))

/-- The metric evaluated by the search at candidate size `n`:
`palette_p95_delta_e(&src_lab, &sample_keys, &quantize_image_nodither(…, n), &sample_idx, …)`
(lib.rs:165 and lib.rs:174–175). -/
def search_metric (de : Lab → Lab → ℚ) (tl : Color → Lab) (qn : ℕ → List Color)
    (pixels : List Color) (n : ℕ) : ℚ :=
  (palette_p95_delta_e de tl (lossy_src_lab tl pixels) (lossy_sample_keys pixels)
    (qn n) (lossy_sample_idx pixels) []).1

/-- The search's upper bound (spec 4.4): the fixed ceiling 256 when even the
256-color metric exceeds the budget, else the number of distinct colors of
the preliminary 256-color no-dither quantization, capped at 256
(lib.rs:167–171). -/
def search_upper_bound (de : Lab → Lab → ℚ) (tl : Color → Lab) (qn : ℕ → List Color)
    (pixels : List Color) (lossy : ℚ) : ℕ :=
  if search_metric de tl qn pixels 256 > lossy then 256
  else min (count_unique_colors (qn 256)) 256

/-- lib.rs:167–183, the palette size `n` selected by `apply_lossy_png`:
256 outright when the 256-color metric exceeds the budget, otherwise the
result of bisecting `[1, count_unique_colors(q256).min(256)]`. -/
def apply_lossy_png_palette_size (de : Lab → Lab → ℚ) (tl : Color → Lab)
    (qn : ℕ → List Color) (pixels : List Color) (lossy : ℚ) : ℕ :=
  if search_metric de tl qn pixels 256 > lossy then 256
  else bisect lossy (search_metric de tl qn pixels) 1
    (min (count_unique_colors (qn 256)) 256)

theorem bisect_go_spec (lossy : ℚ) (metric : ℕ → ℚ) :
    ∀ fuel lo hi, lo ≤ hi → hi - lo ≤ fuel →
      (lo ≤ bisect_go lossy metric fuel lo hi ∧ bisect_go lossy metric fuel lo hi ≤ hi) ∧
      (∀ m ∈ bisect_tried lossy metric fuel lo hi, lo ≤ m ∧ m < hi) ∧
      (∀ m ∈ bisect_tried lossy metric fuel lo hi, metric m ≤ lossy →
        bisect_go lossy metric fuel lo hi ≤ m) ∧
      (bisect_go lossy metric fuel lo hi = hi ∨
        (bisect_go lossy metric fuel lo hi ∈ bisect_tried lossy metric fuel lo hi ∧
          metric (bisect_go lossy metric fuel lo hi) ≤ lossy)) := by
  intro fuel
  induction fuel with
  | zero =>
    intro lo hi h1 h2
    have he : lo = hi := by omega
    subst he
    exact ⟨⟨le_refl lo, le_refl lo⟩, by simp [bisect_tried], by simp [bisect_tried],
      Or.inl rfl⟩
  | succ fuel ih =>
    intro lo hi h1 h2
    by_cases hlt : lo < hi
    · have hmid1 : lo ≤ (lo + hi) / 2 := by omega
      have hmid2 : (lo + hi) / 2 < hi := by omega
      by_cases hm : metric ((lo + hi) / 2) ≤ lossy
      · have hgo : bisect_go lossy metric (fuel + 1) lo hi =
            bisect_go lossy metric fuel lo ((lo + hi) / 2) := by
          simp [bisect_go, hlt, hm]
        have htr : bisect_tried lossy metric (fuel + 1) lo hi =
            (lo + hi) / 2 :: bisect_tried lossy metric fuel lo ((lo + hi) / 2) := by
          simp [bisect_tried, hlt, hm]
        obtain ⟨⟨hb1, hb2⟩, htb, hmin, hlast⟩ := ih lo ((lo + hi) / 2) hmid1 (by omega)
        rw [hgo, htr]
        refine ⟨⟨hb1, by omega⟩, ?_, ?_, ?_⟩
        · intro m hmem
          rcases List.mem_cons.mp hmem with hme | hme
          · subst hme; exact ⟨hmid1, hmid2⟩
          · obtain ⟨hx, hy⟩ := htb m hme
            exact ⟨hx, by omega⟩
        · intro m hmem hsat
          rcases List.mem_cons.mp hmem with hme | hme
          · subst hme; exact hb2
          · exact hmin m hme hsat
        · rcases hlast with hl | ⟨hmem, hsat⟩
          · exact Or.inr ⟨by rw [hl]; exact List.mem_cons_self _ _, by rw [hl]; exact hm⟩
          · exact Or.inr ⟨List.mem_cons_of_mem _ hmem, hsat⟩
      · have hgo : bisect_go lossy metric (fuel + 1) lo hi =
            bisect_go lossy metric fuel ((lo + hi) / 2 + 1) hi := by
          simp [bisect_go, hlt, hm]
        have htr : bisect_tried lossy metric (fuel + 1) lo hi =
            (lo + hi) / 2 :: bisect_tried lossy metric fuel ((lo + hi) / 2 + 1) hi := by
          simp [bisect_tried, hlt, hm]
        obtain ⟨⟨hb1, hb2⟩, htb, hmin, hlast⟩ := ih ((lo + hi) / 2 + 1) hi (by omega) (by omega)
        rw [hgo, htr]
        refine ⟨⟨by omega, hb2⟩, ?_, ?_, ?_⟩
        · intro m hmem
          rcases List.mem_cons.mp hmem with hme | hme
          · subst hme; exact ⟨hmid1, hmid2⟩
          · obtain ⟨hx, hy⟩ := htb m hme
            exact ⟨by omega, hy⟩
        · intro m hmem hsat
          rcases List.mem_cons.mp hmem with hme | hme
          · exact absurd (hme ▸ hsat) hm
          · exact hmin m hme hsat
        · rcases hlast with hl | ⟨hmem, hsat⟩
          · exact Or.inl hl
          · exact Or.inr ⟨List.mem_cons_of_mem _ hmem, hsat⟩
    · have he : lo = hi := by omega
      subst he
      exact ⟨⟨by simp [bisect_go, hlt], by simp [bisect_go, hlt]⟩,
        by simp [bisect_tried, hlt], by simp [bisect_tried, hlt],
        Or.inl (by simp [bisect_go, hlt])⟩

/-- Any fuel at least `hi − lo` computes the same exit value: the loop
terminates within `hi − lo` iterations. -/
theorem bisect_go_fuel_irrelevant (lossy : ℚ) (metric : ℕ → ℚ) :
    ∀ fuel fuel' lo hi, hi - lo ≤ fuel → hi - lo ≤ fuel' →
      bisect_go lossy metric fuel lo hi = bisect_go lossy metric fuel' lo hi := by
  intro fuel
  induction fuel with
  | zero =>
    intro fuel' lo hi h h'
    have hge : ¬ lo < hi := by omega
    cases fuel' with
    | zero => rfl
    | succ f => simp [bisect_go, hge]
  | succ fuel ih =>
    intro fuel' lo hi h h'
    by_cases hlt : lo < hi
    · cases fuel' with
      | zero => omega
      | succ f' =>
        by_cases hm : metric ((lo + hi) / 2) ≤ lossy
        · simp only [bisect_go, if_pos hlt, if_pos hm]
          exact ih f' lo ((lo + hi) / 2) (by omega) (by omega)
        · simp only [bisect_go, if_neg hm, if_pos hlt]
          exact ih f' ((lo + hi) / 2 + 1) hi (by omega) (by omega)
    · cases fuel' with
      | zero => simp [bisect_go, hlt]
      | succ f' => simp [bisect_go, hlt]

theorem count_unique_colors_pos (pixels : List Color) (h : pixels ≠ []) :
    0 < count_unique_colors pixels := by
  rw [count_unique_colors, List.length_pos]
  intro hd
  exact h (List.map_eq_nil_iff.mp ((List.dedup_eq_nil _).mp hd))

/-- Claim C3: the bisection search over `[1, upper bound]`.  The returned
palette size is always inside `[1, search_upper_bound]`; it is 256 when the
256-color metric exceeds the budget; otherwise it is the minimal tried
candidate size whose metric satisfies the budget, or the upper bound when
no tried size satisfies it; and the loop terminates with `lo = hi` — the
fueled recursion reaches the exit within `hi − lo` iterations, any larger
fuel computing the same value. -/
theorem apply_lossy_bisection_spec (de : Lab → Lab → ℚ) (tl : Color → Lab)
    (qn : ℕ → List Color) (pixels : List Color) (lossy : ℚ)
    (hq : qn 256 ≠ []) :
    1 ≤ apply_lossy_png_palette_size de tl qn pixels lossy ∧
    apply_lossy_png_palette_size de tl qn pixels lossy ≤
      search_upper_bound de tl qn pixels lossy ∧
    (search_metric de tl qn pixels 256 > lossy →
      apply_lossy_png_palette_size de tl qn pixels lossy = 256) ∧
    (¬ search_metric de tl qn pixels 256 > lossy →
      (∀ m ∈ bisect_tried lossy (search_metric de tl qn pixels)
          (min (count_unique_colors (qn 256)) 256 - 1) 1
          (min (count_unique_colors (qn 256)) 256),
        ¬ search_metric de tl qn pixels m ≤ lossy) →
      apply_lossy_png_palette_size de tl qn pixels lossy =
        min (count_unique_colors (qn 256)) 256) ∧
    (¬ search_metric de tl qn pixels 256 > lossy →
      ∀ m₀ ∈ bisect_tried lossy (search_metric de tl qn pixels)
          (min (count_unique_colors (qn 256)) 256 - 1) 1
          (min (count_unique_colors (qn 256)) 256),
        search_metric de tl qn pixels m₀ ≤ lossy →
        apply_lossy_png_palette_size de tl qn pixels lossy ∈
            bisect_tried lossy (search_metric de tl qn pixels)
              (min (count_unique_colors (qn 256)) 256 - 1) 1
              (min (count_unique_colors (qn 256)) 256) ∧
          search_metric de tl qn pixels
              (apply_lossy_png_palette_size de tl qn pixels lossy) ≤ lossy ∧
          ∀ m ∈ bisect_tried lossy (search_metric de tl qn pixels)
              (min (count_unique_colors (qn 256)) 256 - 1) 1
              (min (count_unique_colors (qn 256)) 256),
            search_metric de tl qn pixels m ≤ lossy →
            apply_lossy_png_palette_size de tl qn pixels lossy ≤ m) ∧
    (∀ fuel, min (count_unique_colors (qn 256)) 256 - 1 ≤ fuel →
      bisect_go lossy (search_metric de tl qn pixels) fuel 1
          (min (count_unique_colors (qn 256)) 256) =
        bisect lossy (search_metric de tl qn pixels) 1
          (min (count_unique_colors (qn 256)) 256)) := by
  have hub : 1 ≤ min (count_unique_colors (qn 256)) 256 := by
    have := count_unique_colors_pos (qn 256) hq
    omega
  have hfuel : ∀ fuel, min (count_unique_colors (qn 256)) 256 - 1 ≤ fuel →
      bisect_go lossy (search_metric de tl qn pixels) fuel 1
          (min (count_unique_colors (qn 256)) 256) =
        bisect lossy (search_metric de tl qn pixels) 1
          (min (count_unique_colors (qn 256)) 256) := by
    intro fuel hf
    exact bisect_go_fuel_irrelevant lossy _ fuel
      (min (count_unique_colors (qn 256)) 256 - 1) 1 _ hf (le_refl _)
  by_cases hgt : search_metric de tl qn pixels 256 > lossy
  · have hr : apply_lossy_png_palette_size de tl qn pixels lossy = 256 := by
      rw [apply_lossy_png_palette_size, if_pos hgt]
    have hsu : search_upper_bound de tl qn pixels lossy = 256 := by
      rw [search_upper_bound, if_pos hgt]
    exact ⟨by omega, by omega, fun _ => hr, fun hn => absurd hgt hn,
      fun hn => absurd hgt hn, hfuel⟩
  · have hr : apply_lossy_png_palette_size de tl qn pixels lossy =
        bisect_go lossy (search_metric de tl qn pixels)
          (min (count_unique_colors (qn 256)) 256 - 1) 1
          (min (count_unique_colors (qn 256)) 256) := by
      rw [apply_lossy_png_palette_size, if_neg hgt, bisect]
    have hsu : search_upper_bound de tl qn pixels lossy =
        min (count_unique_colors (qn 256)) 256 := by
      rw [search_upper_bound, if_neg hgt]
    obtain ⟨⟨hb1, hb2⟩, htb, hmin, hlast⟩ :=
      bisect_go_spec lossy (search_metric de tl qn pixels)
        (min (count_unique_colors (qn 256)) 256 - 1) 1
        (min (count_unique_colors (qn 256)) 256) hub (le_refl _)
    refine ⟨by omega, by omega, fun hc => absurd hc hgt, ?_, ?_, hfuel⟩
    · intro _ hnone
      rcases hlast with hl | ⟨hmem, hsat⟩
      · rw [hr, hl]
      · exact absurd hsat (hnone _ hmem)
    · intro _ m₀ hm₀ hsat₀
      rcases hlast with hl | ⟨hmem, hsat⟩
      · exfalso
        have h1 := hmin m₀ hm₀ hsat₀
        have h2 := (htb m₀ hm₀).2
        omega
      · exact ⟨by rw [hr]; exact hmem, by rw [hr]; exact hsat,
          fun m hm hs => by rw [hr]; exact hmin m hm hs⟩

/-- A trivial distance for the C3 witness. -/
def deZero : Lab → Lab → ℚ := fun _ _ => 0

/-- A trivial Lab conversion for the C3 witness. -/
def tlZero : Color → Lab := fun _ => (0, 0, 0)

/-- A one-pixel quantizer output for the C3 witness. -/
def qnOne : ℕ → List Color := fun _ => [⟨0, 0, 0, 0⟩]

/-- Witness for C3 on a single-pixel image with a constant quantizer. -/
theorem apply_lossy_bisection_spec_witness :
    1 ≤ apply_lossy_png_palette_size deZero tlZero qnOne [⟨0, 0, 0, 0⟩] 0 ∧
    apply_lossy_png_palette_size deZero tlZero qnOne [⟨0, 0, 0, 0⟩] 0 ≤
      search_upper_bound deZero tlZero qnOne [⟨0, 0, 0, 0⟩] 0 :=
  ⟨(apply_lossy_bisection_spec deZero tlZero qnOne [⟨0, 0, 0, 0⟩] 0 (by decide)).1,
   (apply_lossy_bisection_spec deZero tlZero qnOne [⟨0, 0, 0, 0⟩] 0 (by decide)).2.1⟩

/-! ## The driver `tinypng_impl` (claims C1 and C10) -/

/-- An `f64` scalar as received from the caller (the `lossy` argument of
`tinypng_impl`): NaN, `+∞`, `−∞`, or a finite value idealized as a
rational. -/
inductive F64 where
  | nan : F64
  | inf : F64
  | negInf : F64
  | val : ℚ → F64
deriving DecidableEq

/-- The comparison `lossy > 0.0` at lib.rs:79, with IEEE semantics: a
comparison against NaN is false, `+∞ > 0` is true, `−∞ > 0` is false. -/
def f64_gt_zero : F64 → Bool
  | .nan => false
  | .inf => true
  | .negInf => false
  | .val q => decide (0 < q)

/-- Which processing path a file takes (lib.rs:79–94). -/
inductive Route where
  | lossy : Route
  | lossless : Route
deriving DecidableEq

/-- Success or failure of each external call made by `tinypng_impl`,
abstracted as oracles: `inputExists` models `Path::exists` (lib.rs:39),
`mkdirOk` the `create_dir_all` calls (lib.rs:49), `lossyOk` the
decode/quantize/encode inside `apply_lossy_png` (lib.rs:80), `memOptOk`
`oxipng::optimize_from_memory` (lib.rs:81), `writeOk` `fs::write`
(lib.rs:83) and `fileOptOk` `oxipng::optimize` (lib.rs:92). -/
structure Ext where
  inputExists : String → Bool
  mkdirOk : Bool
  lossyOk : Bool
  memOptOk : Bool
  writeOk : Bool
  fileOptOk : Bool

/-- The per-file branch at lib.rs:79–94: the lossy path (decode, quantize,
optimize from memory, write) exactly when `lossy > 0.0`, the plain
lossless optimize otherwise. -/
def process_file (ext : Ext) (lossy : F64) : Except String Route :=
  if f64_gt_zero lossy then
    if ext.lossyOk then
      if ext.memOptOk then
        if ext.writeOk then Except.ok Route.lossy
        else Except.error "Failed to write output"
      else Except.error "Failed to optimize"
    else Except.error "Failed to read PNG"
  else
    if ext.fileOptOk then Except.ok Route.lossless
    else Except.error "Failed to optimize"

/-- The per-file loop at lib.rs:69–132: process every file in order,
aborting at the first error, recording the route each file took (the
source returns `Ok(())`; the route list is the observable trace of which
path ran). -/
def process_files (ext : Ext) (lossy : F64) : List String → Except String (List Route)
  | [] => Except.ok []
  | _ :: rest =>
    match process_file ext lossy with
    | Except.error e => Except.error e
    | Except.ok r =>
      match process_files ext lossy rest with
      | Except.error e => Except.error e
      | Except.ok rs => Except.ok (r :: rs)

/-- lib.rs:18–135, `tinypng_impl` (the `level`/`alpha`/`preserve`/`verbose`
parameters only configure the external optimizer or control printing and
are omitted): validate that the path vectors have equal length and that
every input exists, create output directories, then process each file.
There is no validation of the `lossy` budget anywhere. -/
def tinypng_impl (ext : Ext) (inputs outputs : List String) (lossy : F64) :
    Except String (List Route) :=
  if inputs.length ≠ outputs.length then
    Except.error "Input and output vectors must have the same length"
  else if (inputs.filter (fun s => ! ext.inputExists s)) ≠ [] then
    Except.error "Input file does not exist"
  else if ! ext.mkdirOk then
    Except.error "Failed to create directory"
  else process_files ext lossy inputs

/-- All external calls succeed. -/
def extAllOk : Ext := ⟨fun _ => true, true, true, true, true, true⟩

theorem process_file_nonpositive (ext : Ext) (b : F64) (h : f64_gt_zero b = false) :
    process_file ext b = process_file ext (F64.val 0) := by
  rw [process_file, process_file, h,
    show f64_gt_zero (F64.val 0) = false by simp [f64_gt_zero]]

theorem process_files_lossless (ext : Ext) (b : F64) (h : f64_gt_zero b = false) :
    ∀ inputs rs, process_files ext b inputs = Except.ok rs →
      ∀ r ∈ rs, r = Route.lossless := by
  intro inputs
  induction inputs with
  | nil =>
    intro rs hok r hr
    rw [process_files] at hok
    cases hok
    cases hr
  | cons x rest ih =>
    intro rs hok r hr
    have hpf : process_file ext b =
        if ext.fileOptOk then Except.ok Route.lossless
        else Except.error "Failed to optimize" := by
      rw [process_file, h]
      simp
    rw [process_files, hpf] at hok
    by_cases hopt : ext.fileOptOk = true
    · rw [if_pos hopt] at hok
      cases hrec : process_files ext b rest with
      | error e =>
        rw [hrec] at hok
        simp at hok
      | ok rs' =>
        rw [hrec] at hok
        simp only [Except.ok.injEq] at hok
        subst hok
        rcases List.mem_cons.mp hr with hre | hre
        · exact hre
        · exact ih rs' hrec r hre
    · rw [if_neg hopt] at hok
      simp at hok

/-- Claim C1 (counterexample): with all collaborators succeeding, no
malformed or out-of-range budget ever raises a ValidationError.  At the
negative budget −1 and at NaN, `tinypng_impl` runs to completion through
the lossless path and returns success; at the remaining non-finite budget
`+∞`, `lossy > 0.0` is true and the call runs the full lossy pixel
processing and also returns success.  In no case is the call aborted. -/
theorem tinypng_no_validation_error_counterexample :
    tinypng_impl extAllOk ["in.png"] ["out.png"] (F64.val (-1)) =
        Except.ok [Route.lossless] ∧
      tinypng_impl extAllOk ["in.png"] ["out.png"] F64.nan =
        Except.ok [Route.lossless] ∧
      tinypng_impl extAllOk ["in.png"] ["out.png"] F64.inf =
        Except.ok [Route.lossy] := by
  have h1 : f64_gt_zero (F64.val (-1)) = false := by
    simp only [f64_gt_zero, decide_eq_false_iff_not]
    norm_num
  refine ⟨?_, ?_, ?_⟩
  · rw [tinypng_impl]
    norm_num [extAllOk, process_files, process_file, h1, Bind.bind, Except.bind]
  · rw [tinypng_impl]
    norm_num [extAllOk, process_files, process_file, f64_gt_zero, Bind.bind, Except.bind]
  · rw [tinypng_impl]
    norm_num [extAllOk, process_files, process_file, f64_gt_zero, Bind.bind, Except.bind]

/-- Claim C1 (amended): a budget for which `lossy > 0.0` is false — zero,
any negative value, `−∞`, or NaN — raises no error at all: the call
behaves exactly as with a budget of 0 and performs only lossless
optimization on every file.  (`+∞` is not in this class: it passes the
`lossy > 0.0` test and runs the lossy path, see the counterexample.) -/
theorem tinypng_nonpositive_budget_behaves_lossless (ext : Ext)
    (inputs outputs : List String) (b : F64) (h : f64_gt_zero b = false) :
    tinypng_impl ext inputs outputs b = tinypng_impl ext inputs outputs (F64.val 0) ∧
    (∀ rs, tinypng_impl ext inputs outputs b = Except.ok rs →
      ∀ r ∈ rs, r = Route.lossless) := by
  have hpf : ∀ l : List String, process_files ext b l = process_files ext (F64.val 0) l := by
    intro l
    induction l with
    | nil => rfl
    | cons x rest ih =>
      rw [process_files, process_files, process_file_nonpositive ext b h, ih]
  constructor
  · rw [tinypng_impl, tinypng_impl, hpf]
  · intro rs hok r hr
    rw [tinypng_impl] at hok
    by_cases h1 : inputs.length ≠ outputs.length
    · rw [if_pos h1] at hok
      cases hok
    · rw [if_neg h1] at hok
      by_cases h2 : (inputs.filter (fun s => ! ext.inputExists s)) ≠ []
      · rw [if_pos h2] at hok
        cases hok
      · rw [if_neg h2] at hok
        by_cases h3 : (! ext.mkdirOk) = true
        · rw [if_pos h3] at hok
          cases hok
        · rw [if_neg h3] at hok
          exact process_files_lossless ext b h inputs rs hok r hr

/-- Witness for the amended C1 at the concrete budget NaN. -/
theorem tinypng_nonpositive_budget_behaves_lossless_witness :
    tinypng_impl extAllOk ["a.png"] ["b.png"] F64.nan =
      tinypng_impl extAllOk ["a.png"] ["b.png"] (F64.val 0) :=
  (tinypng_nonpositive_budget_behaves_lossless extAllOk ["a.png"] ["b.png"]
    F64.nan rfl).1

/-- Claim C10: for every budget not strictly greater than 0 — zero, every
negative value, NaN — the lossy preprocessing is never invoked: the result
does not depend on the lossy-path oracles (decode, in-memory optimize,
write), every processed file takes the lossless path only, and the budget
raises no error (the behaviour coincides with budget 0). -/
theorem nonpositive_budget_no_lossy_path (ext : Ext) (inputs outputs : List String)
    (b : F64) (h : f64_gt_zero b = false) :
    (∀ l m w, tinypng_impl { ext with lossyOk := l, memOptOk := m, writeOk := w }
        inputs outputs b = tinypng_impl ext inputs outputs b) ∧
    tinypng_impl ext inputs outputs b = tinypng_impl ext inputs outputs (F64.val 0) ∧
    (∀ rs, tinypng_impl ext inputs outputs b = Except.ok rs → Route.lossy ∉ rs) := by
  refine ⟨?_, (tinypng_nonpositive_budget_behaves_lossless ext inputs outputs b h).1, ?_⟩
  · intro l m w
    have hpf : process_file { ext with lossyOk := l, memOptOk := m, writeOk := w } b =
        process_file ext b := by
      rw [process_file, process_file, h]
      simp
    have hpfs : ∀ li : List String,
        process_files { ext with lossyOk := l, memOptOk := m, writeOk := w } b li =
          process_files ext b li := by
      intro li
      induction li with
      | nil => rfl
      | cons x rest ih => rw [process_files, process_files, hpf, ih]
    rw [tinypng_impl, tinypng_impl, hpfs]
  · intro rs hok hmem
    have := (tinypng_nonpositive_budget_behaves_lossless ext inputs outputs b h).2
      rs hok Route.lossy hmem
    cases this

/-- Witness for C10 at the concrete budget −2. -/
theorem nonpositive_budget_no_lossy_path_witness :
    tinypng_impl { extAllOk with lossyOk := false, memOptOk := false, writeOk := false }
        ["a.png"] ["b.png"] (F64.val (-2)) =
      tinypng_impl extAllOk ["a.png"] ["b.png"] (F64.val (-2)) :=
  (nonpositive_budget_no_lossy_path extAllOk ["a.png"] ["b.png"] (F64.val (-2))
    (by simp only [f64_gt_zero, decide_eq_false_iff_not]; norm_num)).1 false false false

end Tinyimg
